import Mathlib

/-!
Verification of the hierarchical document engine of the notion-clone
repository.  The document record is embedded from the Convex schema in
README.md (`convex/schema.ts`); the store operations (archive, restore,
permanent delete, move, publish, the query layer and the debounced
content-update path) are the server-side mutations the hooks in
README.md call into; their code is not part of the repository snapshot,
so they are modelled from the specification, as marked on each
definition.
-/

/-- Document record, embedded from the `documents` table of
`convex/schema.ts` in README.md (field names kept). Ids are `Nat`,
user ids are `String`, timestamps are `Nat`. -/
structure Document where
  id : Nat
  title : String
  content : Option String
  coverImage : Option String
  icon : Option String
  userId : String
  parentDocument : Option Nat
  isArchived : Bool
  isPublished : Bool
  createdAt : Nat
  updatedAt : Nat
deriving DecidableEq, Repr

/-- The document store: the durable table of document records. -/
abbrev Store := List Document

/-- Error taxonomy, from §7 of the specification. -/
inductive DocError where
  | NotFound
  | Forbidden
  | Archived
  | NotArchived
  | CycleDetected
  | InvalidParent
deriving DecidableEq, Repr

namespace DocEngine

/-- Look a document up by id (first record with that id). -/
def findDoc (s : Store) (id : Nat) : Option Document :=
  s.find? (fun d => d.id == id)

/-- The chain of ancestor ids of `x`, following `parentDocument`
links, cut off by fuel. -/
def ancestors (s : Store) : Nat → Nat → List Nat
  | 0, _ => []
  | fuel + 1, x =>
    match findDoc s x with
    | none => []
    | some d =>
      match d.parentDocument with
      | none => []
      | some p => p :: ancestors s fuel p

/-- `x` is a (strict) transitive descendant of `root`: `root` occurs on
`x`'s ancestor chain.  Fuel `s.length` covers every simple parent chain
of an acyclic store. -/
def isDescendantOf (s : Store) (x root : Nat) : Bool :=
  decide (root ∈ ancestors s s.length x)

/-- The descendant closure of `id`: ids of all documents in the store
that are transitive descendants of `id` (§4.2 of the spec). -/
def descendantClosure (s : Store) (id : Nat) : List Nat :=
  (s.filter (fun d => isDescendantOf s d.id id)).map Document.id

/-- Well-formedness: no two records share an id. -/
def idsNodup (s : Store) : Prop :=
  (s.map Document.id).Nodup

/-- Invariant 1 of §3: every `parentDocument` reference points at an
existing record with the same owner. -/
def parentsValidB (s : Store) : Bool :=
  s.all (fun d =>
    match d.parentDocument with
    | none => true
    | some p => s.any (fun pd => pd.id == p && pd.userId == d.userId))

/-- Invariant 2 of §3: the parent graph is acyclic — no document is its
own ancestor. -/
def acyclicB (s : Store) : Bool :=
  s.all (fun d => !(isDescendantOf s d.id d.id))

/-- Modelled from the spec: `get(id, callerId)` of §4.1 (the backing
`documents` query is not in the snapshot).  Fails with `NotFound` when
the id is absent or the caller is neither the owner nor reading a
published document. -/
def get (s : Store) (id : Nat) (callerId : String) : Except DocError Document :=
  match findDoc s id with
  | none => .error .NotFound
  | some d =>
    if d.userId == callerId || d.isPublished then .ok d else .error .NotFound

/-- Modelled from the spec: the `documents:update` mutation invoked by
`Editor.debouncedUpdate` in README.md (content update; §4.1 `update`).
Fails with `Forbidden` for a non-owner, `Archived` on an archived
target; stores the content and bumps `updatedAt`. -/
def update (s : Store) (id : Nat) (callerId : String) (content : String)
    (now : Nat) : Except DocError Store :=
  match findDoc s id with
  | none => .error .NotFound
  | some d =>
    if d.userId != callerId then .error .Forbidden
    else if d.isArchived then .error .Archived
    else .ok (s.map (fun x =>
      if x.id == id then { x with content := some content, updatedAt := now } else x))

/-- Modelled from the spec: the `documents:archive` mutation invoked by
`useTrash.moveToTrash` in README.md (§4.2 *Archive*): marks the target
and its full descendant closure archived, returning the affected set. -/
def archive (s : Store) (id : Nat) (callerId : String) :
    Except DocError (Store × List Nat) :=
  match findDoc s id with
  | none => .error .NotFound
  | some d =>
    if d.userId != callerId then .error .Forbidden
    else
      let affected := id :: descendantClosure s id
      .ok (s.map (fun x =>
        if affected.contains x.id then { x with isArchived := true } else x),
        affected)

/-- Modelled from the spec: the `documents:archive` mutation invoked
with `isArchived: false` by `useTrash.restore` in README.md (§4.2
*Restore*): un-archives only the target itself, never descendants;
fails with `NotArchived` on a live document. -/
def restore (s : Store) (id : Nat) (callerId : String) : Except DocError Store :=
  match findDoc s id with
  | none => .error .NotFound
  | some d =>
    if d.userId != callerId then .error .Forbidden
    else if !d.isArchived then .error .NotArchived
    else .ok (s.map (fun x =>
      if x.id == id then { x with isArchived := false } else x))

/-- Modelled from the spec: the `documents:delete` mutation invoked by
`useTrash.deletePermanently` in README.md (§4.2 *PermanentlyDelete*):
requires the target to be archived, then atomically removes the target
and its whole descendant closure. -/
def permanentlyDelete (s : Store) (id : Nat) (callerId : String) :
    Except DocError (Store × List Nat) :=
  match findDoc s id with
  | none => .error .NotFound
  | some d =>
    if d.userId != callerId then .error .Forbidden
    else if !d.isArchived then .error .NotArchived
    else
      let affected := id :: descendantClosure s id
      .ok (s.filter (fun x => !(affected.contains x.id)), affected)

/-- The store after a permanent-delete request: on failure the store is
untouched (cascades are all-or-nothing, §7). -/
def applyDelete (s : Store) (id : Nat) (callerId : String) : Store :=
  match permanentlyDelete s id callerId with
  | .ok r => r.1
  | .error _ => s

/-- Modelled from the spec: `move(id, callerId, newParentId)` of §4.1:
re-parents a document, failing with `CycleDetected` when the new parent
is the node itself or one of its descendants, and with `InvalidParent`
on a missing or foreign-owner parent. -/
def move (s : Store) (id : Nat) (callerId : String) (newParentId : Option Nat) :
    Except DocError Store :=
  match findDoc s id with
  | none => .error .NotFound
  | some d =>
    if d.userId != callerId then .error .Forbidden
    else
      match newParentId with
      | none => .ok (s.map (fun x =>
          if x.id == id then { x with parentDocument := none } else x))
      | some p =>
        match findDoc s p with
        | none => .error .InvalidParent
        | some pd =>
          if pd.userId != d.userId then .error .InvalidParent
          else if p == id || isDescendantOf s p id then .error .CycleDetected
          else .ok (s.map (fun x =>
            if x.id == id then { x with parentDocument := some p } else x))

/-- The store after a move request: on failure the tree is untouched. -/
def applyMove (s : Store) (id : Nat) (callerId : String)
    (newParentId : Option Nat) : Store :=
  match move s id callerId newParentId with
  | .ok s2 => s2
  | .error _ => s

/-- Modelled from the spec: the `documents:publish` mutation invoked by
`usePublish` in README.md (§4.1 `publish`): toggles `isPublished` on the
single target document, no cascade. -/
def publish (s : Store) (id : Nat) (callerId : String) (published : Bool) :
    Except DocError Store :=
  match findDoc s id with
  | none => .error .NotFound
  | some d =>
    if d.userId != callerId then .error .Forbidden
    else .ok (s.map (fun x =>
      if x.id == id then { x with isPublished := published } else x))

/-- Listing order of §4.3: `createdAt` ascending, ties broken by id. -/
def docLE (a b : Document) : Bool :=
  decide (a.createdAt < b.createdAt ∨ (a.createdAt = b.createdAt ∧ a.id ≤ b.id))

/-- Modelled from the spec: the `documents:list` query invoked by
`useDocuments` in README.md (§4.3 `listChildren`): direct children of
`parentId` owned by `ownerId`, ordered by `createdAt` ascending with
ties broken by id, excluding archived documents unless
`includeArchived`. -/
def listChildren (s : Store) (parentId : Option Nat) (ownerId : String)
    (includeArchived : Bool) : List Document :=
  (s.filter (fun d =>
    d.userId == ownerId && d.parentDocument == parentId &&
      (includeArchived || !d.isArchived))).mergeSort docLE

/-- Bool substring test on character lists. -/
def strContains (needle : List Char) : List Char → Bool
  | [] => needle.isEmpty
  | c :: rest => needle.isPrefixOf (c :: rest) || strContains needle rest

/-- Search order of §4.3: `updatedAt` descending, ties broken by id. -/
def docSearchLE (a b : Document) : Bool :=
  decide (b.updatedAt < a.updatedAt ∨ (a.updatedAt = b.updatedAt ∧ a.id ≤ b.id))

/-- Modelled from the spec: `search(ownerId, titleQuery)` of §4.3:
case-insensitive substring match over the caller's non-archived
documents, deterministically ordered. -/
def search (s : Store) (ownerId : String) (titleQuery : String) : List Document :=
  (s.filter (fun d =>
    d.userId == ownerId && !d.isArchived &&
      strContains titleQuery.toLower.toList d.title.toLower.toList)).mergeSort docSearchLE

/-- Modelled from the spec: `listTrash(ownerId)` of §4.3: archived
documents of the owner whose parent is not itself archived (top level
of the trash only). -/
def listTrash (s : Store) (ownerId : String) : List Document :=
  s.filter (fun d =>
    d.userId == ownerId && d.isArchived &&
      (match d.parentDocument with
       | none => true
       | some p =>
         match findDoc s p with
         | some pd => !pd.isArchived
         | none => true))

/-- Modelled from the spec: the trailing-edge debounce wrapping
`documents:update` in `Editor.debouncedUpdate` of README.md (delay
500ms).  Input: the submissions of one session as an ordered list of
(time, content) pairs.  A submission fires at `time + delay` unless a
later submission arrives before that; the output is the list of
(fire time, content) calls actually forwarded to the mutation. -/
def debounceFires (delay : Nat) : List (Nat × String) → List (Nat × String)
  | [] => []
  | (t, c) :: rest =>
    match rest with
    | [] => [(t + delay, c)]
    | (t2, _) :: _ =>
      if t2 < t + delay then debounceFires delay rest
      else (t + delay, c) :: debounceFires delay rest

/-- All submissions fall inside one debounce window: each arrives
before the previous one's timer elapses. -/
def withinOneWindow (delay : Nat) : List (Nat × String) → Bool
  | a :: b :: rest => decide (b.1 < a.1 + delay) && withinOneWindow delay (b :: rest)
  | _ => true

/-- Run one editing session against the store: forward every debounce
fire to the `update` mutation, counting committed mutations — each
commit is one notification per subscriber (§4.4). -/
def runWindow (s : Store) (id : Nat) (callerId : String)
    (subs : List (Nat × String)) : Store × Nat :=
  (debounceFires 500 subs).foldl
    (fun acc fire =>
      match update acc.1 id callerId fire.2 fire.1 with
      | .ok s2 => (s2, acc.2 + 1)
      | .error _ => (acc.1, acc.2))
    (s, 0)

/-- Result row of `useDocuments`: a document together with the
`children` array attached by the hook. -/
structure DocumentWithChildren where
  doc : Document
  children : List Document
deriving DecidableEq, Repr

/-- The `documents:list` query as invoked by `useDocuments` in
README.md: arguments `parentDocument = parentId` and
`isArchived = false`. -/
def documentsList (s : Store) (parentId : Option Nat) : List Document :=
  s.filter (fun d => d.parentDocument == parentId && !d.isArchived)

/-- Embedded from `hooks/useDocuments.ts` in README.md: each returned
document gets as `children` the members of the same result list whose
`parentDocument` equals its id. -/
def useDocuments (s : Store) (parentId : Option Nat) : List DocumentWithChildren :=
  (documentsList s parentId).map (fun doc =>
    ⟨doc, (documentsList s parentId).filter
      (fun child => child.parentDocument == some doc.id)⟩)

end DocEngine

/-! JSON values and a parser modelling the JavaScript builtin
`JSON.parse` used by the `Editor` component in README.md (core JSON
grammar; strings support the simple backslash escapes, numbers keep
their lexeme). -/

/-- JSON value. -/
inductive Json where
  | null
  | bool (b : Bool)
  | num (raw : String)
  | str (s : String)
  | arr (elems : List Json)
  | obj (fields : List (String × Json))

namespace Json

/-- The double-quote character. -/
def quoteChar : Char := Char.ofNat 34

/-- The backslash character. -/
def backslashChar : Char := Char.ofNat 92

/-- The opening-brace character. -/
def lbraceChar : Char := Char.ofNat 123

/-- The closing-brace character. -/
def rbraceChar : Char := Char.ofNat 125

/-- Skip JSON whitespace. -/
def skipWs : List Char → List Char
  | [] => []
  | c :: rest =>
    if c = ' ' ∨ c = '\n' ∨ c = '\t' ∨ c = '\r' then skipWs rest else c :: rest

/-- Translate a backslash escape character. -/
def escChar (c : Char) : Option Char :=
  if c = quoteChar then some quoteChar
  else if c = backslashChar then some backslashChar
  else if c = '/' then some '/'
  else if c = 'n' then some '\n'
  else if c = 't' then some '\t'
  else if c = 'r' then some '\r'
  else none

/-- Parse the body of a string literal (after the opening quote), up to
and including the closing quote. -/
def parseStringChars : Nat → List Char → Option (List Char × List Char)
  | 0, _ => none
  | _, [] => none
  | fuel + 1, c :: rest =>
    if c = quoteChar then some ([], rest)
    else if c = backslashChar then
      match rest with
      | [] => none
      | e :: rest2 =>
        match escChar e with
        | none => none
        | some ec =>
          (parseStringChars fuel rest2).map (fun r => (ec :: r.1, r.2))
    else
      (parseStringChars fuel rest).map (fun r => (c :: r.1, r.2))

/-- Take a leading run of decimal digits. -/
def takeDigits : List Char → List Char × List Char
  | [] => ([], [])
  | c :: rest =>
    if c.isDigit then
      let r := takeDigits rest
      (c :: r.1, r.2)
    else ([], c :: rest)

/-- Parse a JSON number lexeme (integer part, optional fraction and
exponent), returning the lexeme and the rest. -/
def parseNumber (input : List Char) : Option (List Char × List Char) :=
  let (neg, afterSign) :=
    match input with
    | '-' :: rest => (['-'], rest)
    | _ => (([] : List Char), input)
  let (ds, afterInt) := takeDigits afterSign
  if ds.isEmpty then none
  else
    let (frac, afterFrac) :=
      match afterInt with
      | '.' :: rest =>
        let r := takeDigits rest
        if r.1.isEmpty then (([] : List Char), afterInt)
        else ('.' :: r.1, r.2)
      | _ => (([] : List Char), afterInt)
    let (expo, afterExp) :=
      match afterFrac with
      | 'e' :: rest =>
        let (sgn, rest2) :=
          match rest with
          | '-' :: r2 => (['e', '-'], r2)
          | '+' :: r2 => (['e', '+'], r2)
          | _ => (['e'], rest)
        let r := takeDigits rest2
        if r.1.isEmpty then (([] : List Char), afterFrac) else (sgn ++ r.1, r.2)
      | 'E' :: rest =>
        let (sgn, rest2) :=
          match rest with
          | '-' :: r2 => (['E', '-'], r2)
          | '+' :: r2 => (['E', '+'], r2)
          | _ => (['E'], rest)
        let r := takeDigits rest2
        if r.1.isEmpty then (([] : List Char), afterFrac) else (sgn ++ r.1, r.2)
      | _ => (([] : List Char), afterFrac)
    some (neg ++ ds ++ frac ++ expo, afterExp)

mutual

/-- Parse one JSON value. -/
def parseValue : Nat → List Char → Option (Json × List Char)
  | 0, _ => none
  | fuel + 1, input =>
    match skipWs input with
    | [] => none
    | 'n' :: 'u' :: 'l' :: 'l' :: rest => some (.null, rest)
    | 't' :: 'r' :: 'u' :: 'e' :: rest => some (.bool true, rest)
    | 'f' :: 'a' :: 'l' :: 's' :: 'e' :: rest => some (.bool false, rest)
    | c :: rest =>
      if c = quoteChar then
        (parseStringChars (fuel + 1) rest).map
          (fun r => (.str (String.mk r.1), r.2))
      else if c = '[' then
        (parseElems fuel rest).map (fun r => (.arr r.1, r.2))
      else if c = lbraceChar then
        (parseFields fuel rest).map (fun r => (.obj r.1, r.2))
      else
        (parseNumber (c :: rest)).map (fun r => (.num (String.mk r.1), r.2))

/-- Parse array elements after the opening bracket. -/
def parseElems : Nat → List Char → Option (List Json × List Char)
  | 0, _ => none
  | fuel + 1, input =>
    match skipWs input with
    | ']' :: rest => some ([], rest)
    | other =>
      match parseValue fuel other with
      | none => none
      | some (v, rest) =>
        match parseElemsRest fuel rest with
        | none => none
        | some (vs, rest2) => some (v :: vs, rest2)

/-- Parse the continuation of an array: `, value` repetitions then the
closing bracket. -/
def parseElemsRest : Nat → List Char → Option (List Json × List Char)
  | 0, _ => none
  | fuel + 1, input =>
    match skipWs input with
    | ']' :: rest => some ([], rest)
    | ',' :: rest =>
      match parseValue fuel rest with
      | none => none
      | some (v, rest2) =>
        match parseElemsRest fuel rest2 with
        | none => none
        | some (vs, rest3) => some (v :: vs, rest3)
    | _ => none

/-- Parse object members after the opening brace. -/
def parseFields : Nat → List Char → Option (List (String × Json) × List Char)
  | 0, _ => none
  | fuel + 1, input =>
    match skipWs input with
    | [] => none
    | c :: rest =>
      if c = rbraceChar then some ([], rest)
      else if c = quoteChar then
        match parseStringChars fuel rest with
        | none => none
        | some (key, rest2) =>
          match skipWs rest2 with
          | ':' :: rest3 =>
            match parseValue fuel rest3 with
            | none => none
            | some (v, rest4) =>
              match parseFieldsRest fuel rest4 with
              | none => none
              | some (fs, rest5) => some ((String.mk key, v) :: fs, rest5)
          | _ => none
      else none

/-- Parse the continuation of an object: `, "key": value` repetitions
then the closing brace. -/
def parseFieldsRest : Nat → List Char → Option (List (String × Json) × List Char)
  | 0, _ => none
  | fuel + 1, input =>
    match skipWs input with
    | [] => none
    | ',' :: rest =>
      match skipWs rest with
      | [] => none
      | c :: rest2 =>
        if c = quoteChar then
          match parseStringChars fuel rest2 with
          | none => none
          | some (key, rest3) =>
            match skipWs rest3 with
            | ':' :: rest4 =>
              match parseValue fuel rest4 with
              | none => none
              | some (v, rest5) =>
                match parseFieldsRest fuel rest5 with
                | none => none
                | some (fs, rest6) => some ((String.mk key, v) :: fs, rest6)
            | _ => none
        else none
    | c :: rest =>
      if c = rbraceChar then some ([], rest) else none

end

/-- Model of the JavaScript builtin `JSON.parse`: `some` a value on
valid JSON text, `none` (a thrown `SyntaxError`) otherwise. -/
def parse (s : String) : Option Json :=
  match parseValue (2 * s.toList.length + 8) s.toList with
  | none => none
  | some (v, rest) =>
    match skipWs rest with
    | [] => some v
    | _ => none

end Json

/-! Concrete documents and stores used by the witnesses. -/

/-- A root document of owner `u`. -/
def docA : Document :=
  { id := 1, title := "root", content := none, coverImage := none, icon := none,
    userId := "u", parentDocument := none, isArchived := false,
    isPublished := false, createdAt := 0, updatedAt := 0 }

/-- A child of `docA`. -/
def docB : Document :=
  { id := 2, title := "child", content := none, coverImage := none, icon := none,
    userId := "u", parentDocument := some 1, isArchived := false,
    isPublished := false, createdAt := 1, updatedAt := 1 }

/-- A child of `docB`. -/
def docC : Document :=
  { id := 3, title := "grandchild", content := none, coverImage := none,
    icon := none, userId := "u", parentDocument := some 2, isArchived := false,
    isPublished := false, createdAt := 2, updatedAt := 2 }

/-- A three-level store: `docA` ← `docB` ← `docC`. -/
def baseStore : Store := [docA, docB, docC]

/-- The store after archiving `docA` in `baseStore`. -/
def archStore : Store :=
  match DocEngine.archive baseStore 1 "u" with
  | .ok r => r.1
  | .error _ => []

/-- The affected set of archiving `docA` in `baseStore`. -/
def archAff : List Nat :=
  match DocEngine.archive baseStore 1 "u" with
  | .ok r => r.2
  | .error _ => []

/-- The store after restoring `docA` in `archStore`. -/
def restStore : Store :=
  match DocEngine.restore archStore 1 "u" with
  | .ok r => r
  | .error _ => []

/-- The store after permanently deleting `docA` from `archStore`. -/
def delStore : Store :=
  match DocEngine.permanentlyDelete archStore 1 "u" with
  | .ok r => r.1
  | .error _ => []

/-- The affected set of permanently deleting `docA` from `archStore`. -/
def delAff : List Nat :=
  match DocEngine.permanentlyDelete archStore 1 "u" with
  | .ok r => r.2
  | .error _ => []

/-- The store after publishing `docA` in `baseStore`. -/
def pubStore : Store :=
  match DocEngine.publish baseStore 1 "u" true with
  | .ok r => r
  | .error _ => []

instance (s : Store) : Decidable (DocEngine.idsNodup s) :=
  List.nodupDecidable _

/-- Failure mode of constructing the editor. -/
inductive EditorInitError where
  | parseFailed
deriving DecidableEq, Repr

/-- The constructed editor state: the parsed initial content handed to
`BlockNoteEditor` (or `undefined`). -/
structure EditorState where
  initialContent : Option Json

/-- Embedded from `components/Editor.tsx` in README.md: the constructor
evaluates `initialContent ? JSON.parse(initialContent) : undefined` —
a non-empty string is parsed (a parse failure throws), an empty string
is falsy and an absent argument skips the parse. -/
def mkEditor (initialContent : Option String) : Except EditorInitError EditorState :=
  match initialContent with
  | none => .ok ⟨none⟩
  | some c =>
    if c = "" then .ok ⟨none⟩
    else
      match Json.parse c with
      | some j => .ok ⟨some j⟩
      | none => .error .parseFailed

/-! Shared lemmas about the store operations. -/

namespace DocEngine

/-- `findDoc` commutes with mapping an id-preserving function over the
store. -/
theorem findDoc_map_of_id (s : Store) (g : Document → Document)
    (hg : ∀ d, (g d).id = d.id) (x : Nat) :
    findDoc (s.map g) x = (findDoc s x).map g := by
  unfold findDoc
  rw [List.find?_map]
  have hfun : ((fun d => d.id == x) ∘ g) = (fun d => d.id == x) := by
    funext d
    simp [Function.comp, hg]
  rw [hfun]

/-- A successful lookup returns a member with the requested id. -/
theorem findDoc_some_mem {s : Store} {x : Nat} {d : Document}
    (h : findDoc s x = some d) : d ∈ s ∧ d.id = x := by
  refine ⟨List.mem_of_find?_eq_some h, ?_⟩
  have := List.find?_some h
  simpa using this

/-- A lookup fails exactly when no member has the requested id. -/
theorem findDoc_eq_none_iff (s : Store) (x : Nat) :
    findDoc s x = none ↔ ∀ d ∈ s, d.id ≠ x := by
  unfold findDoc
  rw [List.find?_eq_none]
  simp

/-- With unique ids, two members sharing an id are equal. -/
theorem docEq_of_nodup {s : Store} (hnd : idsNodup s) {d e : Document}
    (hd : d ∈ s) (he : e ∈ s) (hid : d.id = e.id) : d = e :=
  List.inj_on_of_nodup_map hnd hd he hid

/-- With unique ids, looking a member up by its own id finds it. -/
theorem findDoc_of_mem (s : Store) (hnd : idsNodup s) {d : Document}
    (hmem : d ∈ s) : findDoc s d.id = some d := by
  cases h : findDoc s d.id with
  | none =>
    rw [findDoc_eq_none_iff] at h
    exact absurd rfl (h d hmem)
  | some e =>
    obtain ⟨hes, heid⟩ := findDoc_some_mem h
    rw [docEq_of_nodup hnd hmem hes heid.symm]

/-- The ancestor chain of an unknown id is empty. -/
theorem ancestors_of_findDoc_none (s : Store) (fuel x : Nat)
    (h : findDoc s x = none) : ancestors s fuel x = [] := by
  cases fuel with
  | zero => rfl
  | succ n => unfold ancestors; rw [h]

/-- Step equation of `ancestors` when the document has a parent. -/
theorem ancestors_succ_some (s : Store) (n x p : Nat) (xd : Document)
    (hx : findDoc s x = some xd) (hp : xd.parentDocument = some p) :
    ancestors s (n + 1) x = p :: ancestors s n p := by
  conv_lhs => rw [ancestors]
  rw [hx]
  dsimp only
  rw [hp]

/-- Step equation of `ancestors` when the document is a root. -/
theorem ancestors_succ_none (s : Store) (n x : Nat) (xd : Document)
    (hx : findDoc s x = some xd) (hp : xd.parentDocument = none) :
    ancestors s (n + 1) x = [] := by
  conv_lhs => rw [ancestors]
  rw [hx]
  dsimp only
  rw [hp]

/-- `isDescendantOf` unfolded to chain membership. -/
theorem isDescendantOf_iff (s : Store) (x root : Nat) :
    isDescendantOf s x root = true ↔ root ∈ ancestors s s.length x := by
  simp [isDescendantOf]

/-- Under invariant 1 (`parentsValidB`) every ancestor of a document is
a member of the store with the same owner. -/
theorem mem_ancestors_owner (s : Store) (hnd : idsNodup s)
    (hpv : parentsValidB s = true) :
    ∀ (fuel x : Nat) (xd : Document), findDoc s x = some xd →
      ∀ a ∈ ancestors s fuel x, ∃ ad ∈ s, ad.id = a ∧ ad.userId = xd.userId := by
  intro fuel
  induction fuel with
  | zero => intro x xd _ a ha; simp [ancestors] at ha
  | succ n ih =>
    intro x xd hx a ha
    cases hp : xd.parentDocument with
    | none => rw [ancestors_succ_none s n x xd hx hp] at ha; simp at ha
    | some p =>
      rw [ancestors_succ_some s n x p xd hx hp] at ha
      obtain ⟨hxs, _⟩ := findDoc_some_mem hx
      rw [parentsValidB, List.all_eq_true] at hpv
      have hone := hpv xd hxs
      rw [hp, List.any_eq_true] at hone
      obtain ⟨pd, hpds, hpdb⟩ := hone
      rw [Bool.and_eq_true, beq_iff_eq, beq_iff_eq] at hpdb
      obtain ⟨hpid, hpu⟩ := hpdb
      rcases List.mem_cons.mp ha with rfl | htail
      · exact ⟨pd, hpds, hpid, hpu⟩
      · have hfp : findDoc s p = some pd := by
          have := findDoc_of_mem s hnd hpds
          rwa [hpid] at this
        obtain ⟨ad, hads, hadid, hadu⟩ := ih p pd hfp a htail
        exact ⟨ad, hads, hadid, by rw [hadu, hpu]⟩

/-- A self-parenting member of a store with unique ids is its own
descendant. -/
theorem self_parent_descendant (s : Store) (hnd : idsNodup s)
    {d : Document} (hmem : d ∈ s) (hp : d.parentDocument = some d.id) :
    isDescendantOf s d.id d.id = true := by
  rw [isDescendantOf_iff]
  obtain ⟨k, hk⟩ : ∃ k, s.length = k + 1 := by
    cases s with
    | nil => simp at hmem
    | cons a t => exact ⟨t.length, rfl⟩
  rw [hk, ancestors_succ_some s k d.id d.id d (findDoc_of_mem s hnd hmem) hp]
  exact List.mem_cons_self _ _

/-- Children listings only return store members. -/
theorem listChildren_subset (s : Store) (p : Option Nat) (o : String)
    (b : Bool) : ∀ d ∈ listChildren s p o b, d ∈ s := by
  intro d hd
  unfold listChildren at hd
  rw [(List.mergeSort_perm _ docLE).mem_iff] at hd
  exact (List.mem_filter.mp hd).1

/-- Search results are store members. -/
theorem search_subset (s : Store) (o q : String) :
    ∀ d ∈ search s o q, d ∈ s := by
  intro d hd
  unfold search at hd
  rw [(List.mergeSort_perm _ docSearchLE).mem_iff] at hd
  exact (List.mem_filter.mp hd).1

/-- Trash listings are store members. -/
theorem listTrash_subset (s : Store) (o : String) :
    ∀ d ∈ listTrash s o, d ∈ s := by
  intro d hd
  exact (List.mem_filter.mp hd).1

/-- The listing order is transitive. -/
theorem docLE_trans (a b c : Document) (hab : docLE a b = true)
    (hbc : docLE b c = true) : docLE a c = true := by
  simp only [docLE, decide_eq_true_eq] at hab hbc ⊢
  omega

/-- The listing order is total. -/
theorem docLE_total (a b : Document) : (docLE a b || docLE b a) = true := by
  simp only [docLE, Bool.or_eq_true, decide_eq_true_eq]
  omega

/-- Submissions all landing inside one debounce window produce exactly
one trailing fire, carrying the last submission. -/
theorem debounceFires_within (delay : Nat) :
    ∀ (subs : List (Nat × String)) (tc : Nat × String),
      subs.getLast? = some tc → withinOneWindow delay subs = true →
      debounceFires delay subs = [(tc.1 + delay, tc.2)] := by
  intro subs
  induction subs with
  | nil => intro tc h; simp at h
  | cons a rest ih =>
    intro tc hlast hwin
    cases rest with
    | nil =>
      simp only [List.getLast?_singleton, Option.some.injEq] at hlast
      obtain ⟨t, c⟩ := a
      rw [← hlast]
      rfl
    | cons b rest2 =>
      rw [List.getLast?_cons_cons] at hlast
      obtain ⟨t, c⟩ := a
      obtain ⟨t2, c2⟩ := b
      rw [withinOneWindow, Bool.and_eq_true, decide_eq_true_eq] at hwin
      have hlt : t2 < t + delay := hwin.1
      show debounceFires delay ((t, c) :: (t2, c2) :: rest2) = _
      rw [debounceFires]
      simp only [hlt, if_true]
      exact ih tc hlast hwin.2

end DocEngine

/-! The claims. -/

namespace DocEngine

/-- C1: immediately after `archive(D)` returns, `D` and every
transitive descendant of `D` are marked archived — the archive
operation cascades over the full descendant closure in one atomic
call. -/
theorem archive_cascades (s : Store) (id : Nat) (caller : String)
    (s2 : Store) (aff : List Nat)
    (h : archive s id caller = .ok (s2, aff)) :
    ∀ x : Nat, x = id ∨ isDescendantOf s x id = true →
      findDoc s2 x = (findDoc s x).map (fun d => { d with isArchived := true }) := by
  intro x hx
  unfold archive at h
  cases hfind : findDoc s id with
  | none => rw [hfind] at h; exact absurd h (by simp)
  | some d =>
    rw [hfind] at h
    dsimp only at h
    by_cases hown : (d.userId != caller) = true
    · rw [if_pos hown] at h; exact absurd h (by simp)
    · rw [if_neg hown] at h
      simp only [Except.ok.injEq, Prod.mk.injEq] at h
      obtain ⟨hs2, _⟩ := h
      subst hs2
      rw [findDoc_map_of_id s _ (fun d => by split <;> rfl) x]
      cases hfx : findDoc s x with
      | none => rfl
      | some dx =>
        obtain ⟨hdxs, hdxid⟩ := findDoc_some_mem hfx
        simp only [Option.map_some']
        have hmemaff : dx.id ∈ id :: descendantClosure s id := by
          rcases hx with rfl | hdesc
          · rw [hdxid]; exact List.mem_cons_self _ _
          · refine List.mem_cons_of_mem _ ?_
            unfold descendantClosure
            rw [List.mem_map]
            refine ⟨dx, List.mem_filter.mpr ⟨hdxs, ?_⟩, rfl⟩
            rw [hdxid]
            exact hdesc
        have hcont : (id :: descendantClosure s id).contains dx.id = true :=
          List.elem_iff.mpr hmemaff
        rw [hcont]
        simp

/-- C1 witness: archiving the root of the three-level store marks the
grandchild archived. -/
theorem archive_cascades_witness :
    findDoc archStore 3 =
      (findDoc baseStore 3).map (fun d => { d with isArchived := true }) :=
  archive_cascades baseStore 1 "u" archStore archAff rfl 3 (Or.inr (by decide))

/-- C4: restoring an archived document un-archives only the document
itself — the archive flag of every descendant is unchanged. -/
theorem restore_not_cascading (s : Store) (id : Nat) (caller : String)
    (s2 : Store) (hacyc : acyclicB s = true)
    (h : restore s id caller = .ok s2) :
    ∀ x : Nat, isDescendantOf s x id = true →
      (findDoc s2 x).map Document.isArchived =
        (findDoc s x).map Document.isArchived := by
  intro x hdesc
  unfold restore at h
  cases hfind : findDoc s id with
  | none => rw [hfind] at h; exact absurd h (by simp)
  | some d =>
    rw [hfind] at h
    dsimp only at h
    by_cases hown : (d.userId != caller) = true
    · rw [if_pos hown] at h; exact absurd h (by simp)
    · rw [if_neg hown] at h
      by_cases harch : (!d.isArchived) = true
      · rw [if_pos harch] at h; exact absurd h (by simp)
      · rw [if_neg harch] at h
        simp only [Except.ok.injEq] at h
        subst h
        rw [findDoc_map_of_id s _ (fun d => by split <;> rfl) x]
        have hxne : x ≠ id := by
          rintro rfl
          obtain ⟨hds, hdid⟩ := findDoc_some_mem hfind
          rw [acyclicB, List.all_eq_true] at hacyc
          have := hacyc d hds
          rw [hdid] at this
          simp only [hdesc] at this
          exact absurd this (by simp)
        cases hfx : findDoc s x with
        | none => rfl
        | some dx =>
          obtain ⟨hdxs, hdxid⟩ := findDoc_some_mem hfx
          have hne : (dx.id == id) = false := by
            rw [hdxid]
            exact beq_false_of_ne hxne
          simp only [Option.map_some', hne]
          rw [if_neg (by simp [hne])]

/-- C4 witness: restoring the archived root leaves the archived child
archived. -/
theorem restore_not_cascading_witness :
    (findDoc restStore 2).map Document.isArchived =
      (findDoc archStore 2).map Document.isArchived :=
  restore_not_cascading archStore 1 "u" restStore (by decide) rfl 2 (by decide)

/-- C3: permanent delete succeeds only on an archived target; on a
live document owned by the caller it fails with `NotArchived` and the
store is unchanged. -/
theorem delete_requires_archived (s : Store) (id : Nat) (caller : String)
    (d : Document) (hd : findDoc s id = some d) (hown : d.userId = caller) :
    (∀ s2 aff, permanentlyDelete s id caller = .ok (s2, aff) →
      d.isArchived = true) ∧
    (d.isArchived = false →
      permanentlyDelete s id caller = .error .NotArchived ∧
        applyDelete s id caller = s) := by
  have hbne : (d.userId != caller) = false := by
    rw [hown]
    exact bne_self_eq_false caller
  cases harch : d.isArchived with
  | false =>
    have hdel : permanentlyDelete s id caller = .error .NotArchived := by
      unfold permanentlyDelete
      rw [hd]
      dsimp only
      rw [hbne]
      simp [harch]
    refine ⟨?_, fun _ => ⟨hdel, ?_⟩⟩
    · intro s2 aff hok
      rw [hdel] at hok
      exact absurd hok (by simp)
    · unfold applyDelete
      rw [hdel]
  | true =>
    refine ⟨fun s2 aff _ => rfl, ?_⟩
    intro hfalse
    exact absurd hfalse (by simp)

/-- C3 witness: permanently deleting the live root of `baseStore`
fails with `NotArchived` and leaves the store untouched. -/
theorem delete_requires_archived_witness :
    permanentlyDelete baseStore 1 "u" = .error .NotArchived ∧
      applyDelete baseStore 1 "u" = baseStore :=
  (delete_requires_archived baseStore 1 "u" docA rfl rfl).2 rfl

/-- C8: publishing changes only the `isPublished` flag of the single
target document; every other document — in particular every descendant
— is entirely unchanged. -/
theorem publish_frame (s : Store) (id : Nat) (caller : String) (pub : Bool)
    (s2 : Store) (d : Document)
    (hd : findDoc s id = some d) (hown : d.userId = caller)
    (h : publish s id caller pub = .ok s2) :
    findDoc s2 id = some { d with isPublished := pub } ∧
    ∀ x : Nat, x ≠ id → findDoc s2 x = findDoc s x := by
  unfold publish at h
  rw [hd] at h
  dsimp only at h
  rw [show (d.userId != caller) = false by rw [hown]; exact bne_self_eq_false caller] at h
  simp only [Bool.false_eq_true, if_false, Except.ok.injEq] at h
  subst h
  constructor
  · rw [findDoc_map_of_id s _ (fun d => by split <;> rfl) id, hd]
    simp only [Option.map_some']
    rw [if_pos (by rw [(findDoc_some_mem hd).2]; exact beq_self_eq_true id)]
  · intro x hx
    rw [findDoc_map_of_id s _ (fun d => by split <;> rfl) x]
    cases hfx : findDoc s x with
    | none => rfl
    | some dx =>
      obtain ⟨hdxs, hdxid⟩ := findDoc_some_mem hfx
      simp only [Option.map_some']
      rw [if_neg (by rw [hdxid]; simp [hx])]

/-- C8 witness: publishing the root toggles only its own flag and
leaves the child record identical. -/
theorem publish_frame_witness :
    findDoc pubStore 1 = some { docA with isPublished := true } ∧
      findDoc pubStore 2 = findDoc baseStore 2 := by
  have h := publish_frame baseStore 1 "u" true pubStore docA rfl rfl rfl
  exact ⟨h.1, h.2 2 (by decide)⟩

/-- C2: immediately after a successful `permanentlyDelete(D)`, `D` and
every transitive descendant of `D` are absent from the store: lookups
return `NotFound` and none appears in `listChildren`, `search` or
`listTrash`. -/
theorem delete_removes_subtree (s : Store) (id : Nat) (caller : String)
    (s2 : Store) (aff : List Nat)
    (h : permanentlyDelete s id caller = .ok (s2, aff)) :
    ∀ x : Nat, x = id ∨ isDescendantOf s x id = true →
      findDoc s2 x = none ∧
      (∀ c : String, get s2 x c = .error .NotFound) ∧
      (∀ (p : Option Nat) (o : String) (b : Bool),
        x ∉ (listChildren s2 p o b).map Document.id) ∧
      (∀ o q : String, x ∉ (search s2 o q).map Document.id) ∧
      (∀ o : String, x ∉ (listTrash s2 o).map Document.id) := by
  intro x hx
  unfold permanentlyDelete at h
  cases hfind : findDoc s id with
  | none => rw [hfind] at h; exact absurd h (by simp)
  | some d =>
    rw [hfind] at h
    dsimp only at h
    by_cases hown : (d.userId != caller) = true
    · rw [if_pos hown] at h; exact absurd h (by simp)
    · rw [if_neg hown] at h
      by_cases harch : (!d.isArchived) = true
      · rw [if_pos harch] at h; exact absurd h (by simp)
      · rw [if_neg harch] at h
        simp only [Except.ok.injEq, Prod.mk.injEq] at h
        obtain ⟨hs2, _⟩ := h
        subst hs2
        have hxaff : x ∈ id :: descendantClosure s id := by
          rcases hx with rfl | hdesc
          · exact List.mem_cons_self _ _
          · refine List.mem_cons_of_mem _ ?_
            cases hfx : findDoc s x with
            | none =>
              exfalso
              rw [isDescendantOf_iff,
                ancestors_of_findDoc_none s s.length x hfx] at hdesc
              simp at hdesc
            | some dx =>
              obtain ⟨hdxs, hdxid⟩ := findDoc_some_mem hfx
              unfold descendantClosure
              rw [List.mem_map]
              exact ⟨dx, List.mem_filter.mpr ⟨hdxs, by rw [hdxid]; exact hdesc⟩,
                hdxid⟩
        have hnone :
            findDoc (s.filter
              (fun y => !((id :: descendantClosure s id).contains y.id))) x = none := by
          rw [findDoc_eq_none_iff]
          intro e he hex
          have hkeep := (List.mem_filter.mp he).2
          rw [hex] at hkeep
          have hc : (id :: descendantClosure s id).contains x = true :=
            List.elem_iff.mpr hxaff
          rw [hc] at hkeep
          exact absurd hkeep (by simp)
        have habsent :
            ∀ e ∈ s.filter
              (fun y => !((id :: descendantClosure s id).contains y.id)),
              e.id ≠ x := (findDoc_eq_none_iff _ x).mp hnone
        refine ⟨hnone, ?_, ?_, ?_, ?_⟩
        · intro c
          unfold get
          rw [hnone]
        · intro p o b hmem
          rw [List.mem_map] at hmem
          obtain ⟨e, he, hex⟩ := hmem
          exact habsent e (listChildren_subset _ p o b e he) hex
        · intro o q hmem
          rw [List.mem_map] at hmem
          obtain ⟨e, he, hex⟩ := hmem
          exact habsent e (search_subset _ o q e he) hex
        · intro o hmem
          rw [List.mem_map] at hmem
          obtain ⟨e, he, hex⟩ := hmem
          exact habsent e (listTrash_subset _ o e he) hex

/-- C2 witness: after permanently deleting the archived root, the
child (id 2) is gone from the store and from every listing. -/
theorem delete_removes_subtree_witness :
    findDoc delStore 2 = none ∧
      get delStore 2 "v" = .error .NotFound ∧
      2 ∉ (listChildren delStore (some 1) "u" true).map Document.id ∧
      2 ∉ (search delStore "u" "child").map Document.id ∧
      2 ∉ (listTrash delStore "u").map Document.id := by
  have h := delete_removes_subtree archStore 1 "u" delStore delAff rfl 2
    (by decide)
  exact ⟨h.1, h.2.1 "v", h.2.2.1 (some 1) "u" true, h.2.2.2.1 "u" "child",
    h.2.2.2.2 "u"⟩

/-- C5: moving a document under itself or under one of its transitive
descendants fails with `CycleDetected` and leaves the tree exactly as
before the call. -/
theorem move_cycle_rejected (s : Store) (id p : Nat) (caller : String)
    (d : Document) (hnd : idsNodup s) (hpv : parentsValidB s = true)
    (hd : findDoc s id = some d) (hown : d.userId = caller)
    (hcyc : p = id ∨ isDescendantOf s p id = true) :
    move s id caller (some p) = .error .CycleDetected ∧
      applyMove s id caller (some p) = s := by
  have hbne : (d.userId != caller) = false := by
    rw [hown]
    exact bne_self_eq_false caller
  have hfp : ∃ pd : Document, findDoc s p = some pd ∧ pd.userId = d.userId := by
    rcases hcyc with rfl | hdesc
    · exact ⟨d, hd, rfl⟩
    · cases hfpd : findDoc s p with
      | none =>
        exfalso
        rw [isDescendantOf_iff, ancestors_of_findDoc_none s s.length p hfpd]
          at hdesc
        simp at hdesc
      | some pd =>
        refine ⟨pd, rfl, ?_⟩
        rw [isDescendantOf_iff] at hdesc
        obtain ⟨ad, hads, hadid, hadu⟩ :=
          mem_ancestors_owner s hnd hpv s.length p pd hfpd id hdesc
        obtain ⟨hds, hdid⟩ := findDoc_some_mem hd
        have : ad = d := docEq_of_nodup hnd hads hds (by rw [hadid, hdid])
        rw [← this, hadu]
    -- owner equality shown
  obtain ⟨pd, hfpd, hpu⟩ := hfp
  have hmove : move s id caller (some p) = .error .CycleDetected := by
    unfold move
    rw [hd]
    dsimp only
    rw [hbne]
    simp only [Bool.false_eq_true, if_false]
    rw [hfpd]
    dsimp only
    rw [show (pd.userId != d.userId) = false by rw [hpu]; exact bne_self_eq_false _]
    simp only [Bool.false_eq_true, if_false]
    have hcond : (p == id || isDescendantOf s p id) = true := by
      rcases hcyc with rfl | hdesc
      · simp
      · rw [hdesc]
        simp
    rw [hcond]
    simp
  exact ⟨hmove, by unfold applyMove; rw [hmove]⟩

/-- C5 witness: moving the root of `baseStore` under its grandchild is
rejected with `CycleDetected` and the store is unchanged. -/
theorem move_cycle_rejected_witness :
    move baseStore 1 "u" (some 3) = .error .CycleDetected ∧
      applyMove baseStore 1 "u" (some 3) = baseStore :=
  move_cycle_rejected baseStore 1 3 "u" docA (by decide) (by decide) rfl rfl
    (Or.inr (by decide))

/-- C6: all content updates submitted within one debounce window
coalesce — exactly one mutation commits (one notification per
subscriber), carrying the content of the last submitted update, and
that content is what the store holds afterwards. -/
theorem debounce_window_last_write (s : Store) (id : Nat) (caller : String)
    (d : Document) (subs : List (Nat × String)) (tc : Nat × String)
    (hd : findDoc s id = some d) (hown : d.userId = caller)
    (harch : d.isArchived = false)
    (hlast : subs.getLast? = some tc)
    (hwin : withinOneWindow 500 subs = true) :
    (runWindow s id caller subs).2 = 1 ∧
      (findDoc (runWindow s id caller subs).1 id).map Document.content =
        some (some tc.2) := by
  unfold runWindow
  rw [debounceFires_within 500 subs tc hlast hwin]
  have hupd : update s id caller tc.2 (tc.1 + 500) =
      .ok (s.map (fun x =>
        if x.id == id then
          { x with content := some tc.2, updatedAt := tc.1 + 500 }
        else x)) := by
    unfold update
    rw [hd]
    dsimp only
    rw [show (d.userId != caller) = false by rw [hown]; exact bne_self_eq_false _]
    simp [harch]
  simp only [List.foldl_cons, List.foldl_nil]
  rw [hupd]
  refine ⟨rfl, ?_⟩
  dsimp only
  rw [findDoc_map_of_id s _ (fun d => by split <;> rfl) id, hd]
  simp only [Option.map_some']
  rw [if_pos (by rw [(findDoc_some_mem hd).2]; exact beq_self_eq_true id)]

/-- C6 witness: two rapid updates (`a` at 0ms, `b` at 100ms) to the
root of `baseStore` commit one mutation storing `b`. -/
theorem debounce_window_last_write_witness :
    (runWindow baseStore 1 "u" [(0, "a"), (100, "b")]).2 = 1 ∧
      (findDoc (runWindow baseStore 1 "u" [(0, "a"), (100, "b")]).1 1).map
        Document.content = some (some "b") :=
  debounce_window_last_write baseStore 1 "u" docA [(0, "a"), (100, "b")]
    (100, "b") rfl rfl rfl rfl (by decide)

/-- C7: `listChildren` returns exactly the direct children of the
requested parent owned by the caller — archived ones excluded unless
`includeArchived` — sorted by `createdAt` ascending with ties broken
by id. -/
theorem listChildren_spec (s : Store) (parentId : Option Nat)
    (ownerId : String) (includeArchived : Bool) :
    (∀ d : Document,
      d ∈ listChildren s parentId ownerId includeArchived ↔
        (d ∈ s ∧ d.userId = ownerId ∧ d.parentDocument = parentId ∧
          (includeArchived = true ∨ d.isArchived = false))) ∧
    (listChildren s parentId ownerId includeArchived).Pairwise
      (fun a b => a.createdAt < b.createdAt ∨
        (a.createdAt = b.createdAt ∧ a.id ≤ b.id)) := by
  constructor
  · intro d
    unfold listChildren
    rw [(List.mergeSort_perm _ docLE).mem_iff, List.mem_filter]
    simp only [Bool.and_eq_true, Bool.or_eq_true, beq_iff_eq,
      Bool.not_eq_eq_eq_not, Bool.not_true, and_assoc]
  · have hs := @List.sorted_mergeSort Document docLE docLE_trans docLE_total
      (s.filter (fun d =>
        d.userId == ownerId && d.parentDocument == parentId &&
          (includeArchived || !d.isArchived)))
    unfold listChildren
    refine hs.imp ?_
    intro a b hab
    rw [docLE, decide_eq_true_eq] at hab
    exact hab

/-- C7 witness: the membership characterization and the sort order,
instantiated on `baseStore` at parent `docA`. -/
theorem listChildren_spec_witness :
    (docB ∈ listChildren baseStore (some 1) "u" false ↔
      (docB ∈ baseStore ∧ docB.userId = "u" ∧ docB.parentDocument = some 1 ∧
        (false = true ∨ docB.isArchived = false))) ∧
    (listChildren baseStore (some 1) "u" false).Pairwise
      (fun a b => a.createdAt < b.createdAt ∨
        (a.createdAt = b.createdAt ∧ a.id ≤ b.id)) :=
  ⟨(listChildren_spec baseStore (some 1) "u" false).1 docB,
    (listChildren_spec baseStore (some 1) "u" false).2⟩

/-- C9: in an acyclic forest with unique ids, every row returned by
`useDocuments` has an empty `children` array — a child match would
force a returned document to be its own parent. -/
theorem useDocuments_children_empty (s : Store) (parentId : Option Nat)
    (hnd : idsNodup s) (hacyc : acyclicB s = true) :
    ∀ e ∈ useDocuments s parentId, e.children = [] := by
  intro e he
  unfold useDocuments at he
  rw [List.mem_map] at he
  obtain ⟨doc, hdoc, rfl⟩ := he
  dsimp only
  rw [List.filter_eq_nil_iff]
  intro child hchild hcp
  rw [beq_iff_eq] at hcp
  unfold documentsList at hdoc hchild
  have hdocp := (List.mem_filter.mp hdoc).2
  have hdocs := (List.mem_filter.mp hdoc).1
  have hchildp := (List.mem_filter.mp hchild).2
  rw [Bool.and_eq_true, beq_iff_eq] at hdocp hchildp
  -- the child's parent is both `parentId` and `doc.id`
  have hpid : parentId = some doc.id := by
    rw [← hchildp.1, hcp]
  have hself : doc.parentDocument = some doc.id := by
    rw [hdocp.1, hpid]
  have hdesc := self_parent_descendant s hnd hdocs hself
  rw [acyclicB, List.all_eq_true] at hacyc
  have := hacyc doc hdocs
  rw [hdesc] at this
  exact absurd this (by simp)

/-- C9 witness: listing the children of the root in `baseStore`
returns `docB` with an empty `children` array. -/
theorem useDocuments_children_empty_witness :
    (⟨docB, []⟩ : DocumentWithChildren).children = [] :=
  useDocuments_children_empty baseStore (some 1) (by decide) (by decide)
    ⟨docB, []⟩ (by decide)

end DocEngine

/-- C10: constructing the editor with a non-empty initial content that
is not valid JSON throws (`JSON.parse` fails); with valid JSON or an
absent initial content the constructor succeeds — the stored content
is parsed, not treated as an opaque string, at this boundary. -/
theorem editor_parses_initial_content :
    (∀ c : String, c ≠ "" → Json.parse c = none →
      mkEditor (some c) = .error .parseFailed) ∧
    (∀ (c : String) (j : Json), Json.parse c = some j →
      mkEditor (some c) = .ok ⟨some j⟩) ∧
    mkEditor none = .ok ⟨none⟩ := by
  refine ⟨?_, ?_, rfl⟩
  · intro c hne hparse
    unfold mkEditor
    dsimp only
    rw [if_neg hne, hparse]
  · intro c j hparse
    have hne : c ≠ "" := by
      rintro rfl
      rw [show Json.parse "" = none from rfl] at hparse
      exact Option.noConfusion hparse
    unfold mkEditor
    dsimp only
    rw [if_neg hne, hparse]

/-- C10 witness: `not json` is rejected, the array `[true, null]` and
an absent content are accepted. -/
theorem editor_parses_initial_content_witness :
    mkEditor (some "not json") = .error .parseFailed ∧
      mkEditor (some "[true, null]") = .ok ⟨some (.arr [.bool true, .null])⟩ ∧
      mkEditor none = .ok ⟨none⟩ :=
  ⟨editor_parses_initial_content.1 "not json" (by decide) rfl,
    editor_parses_initial_content.2.1 "[true, null]"
      (.arr [.bool true, .null]) rfl,
    editor_parses_initial_content.2.2⟩
